import Mathlib

/-!
# Verification of `throttle` and `withAbort`

Shallow embedding of

* `src/throttling/src/helpers/throttle.js` (the `throttle` higher-order function), and
* `src/abort_request/src/api/api.js` (`didAbort` and the `executor` built by `withAbort`),

followed by the theorems that settle the specification claims about them.

Modelling conventions for `throttle`:

* clock readings (`Date.now()`) are whole milliseconds, integers supplied by the environment
  with each event;
* the window `wait` is any finite number, a rational here; it is not validated by the source;
* the host timer table (`setTimeout` / `clearTimeout`) is an explicit list of pending timeouts,
  and the host keeps the delay of a timeout as a signed 32-bit number of whole milliseconds;
* the target callback `fn` is a state transformer over its own state `σ` that may throw `ε`;
* every invocation of `fn` is recorded, in order, in `World.invoked`.
-/

namespace Throttle

variable {α σ ε : Type}

/-! ## Data model -/

/-- Failure of the constructor `throttle`. -/
inductive ThrottleError where
  | invalidConfiguration
deriving DecidableEq, Repr

/-- The variables captured by the function that `throttle` returns: the parameter `wait`
and the three `let` bindings. A JavaScript `undefined` is `none`; for `inThrottle`, which
is only ever tested for truthiness, `undefined` is `false`. -/
structure Closure where
  wait : ℚ
  timerId : Option Nat
  inThrottle : Bool
  lastTime : Option Int
deriving DecidableEq, Repr

/-- A pending timeout of the host: the handle returned by `setTimeout`, the clock time at
which it is due, and the `args` captured by the arrow function passed to `setTimeout`. -/
structure Timer (α : Type) where
  id : Nat
  due : Int
  args : α
deriving DecidableEq, Repr

/-- The host timer table, restricted to the timeouts scheduled by one wrapper. -/
structure Host (α : Type) where
  nextId : Nat
  timers : List (Timer α)
deriving DecidableEq, Repr

/-- Record of one invocation `fn(...args)`: the arguments and the `Date.now()` reading of
the guard that admitted it. -/
structure Invocation (α : Type) where
  args : α
  time : Int
deriving DecidableEq, Repr

/-- Everything a run of the wrapper can read or write. -/
structure World (α σ : Type) where
  c : Closure
  host : Host α
  target : σ
  invoked : List (Invocation α)
deriving DecidableEq, Repr

/-- The events that drive a wrapper: the caller calls it with `args` while the clock reads
`now`, or the host runs the callback of timeout `id`; `now` is the clock reading of the
guard and `done` the reading taken after `fn` has returned. -/
inductive Event (α : Type) where
  | call (args : α) (now : Int)
  | fire (id : Nat) (now : Int) (done : Int)
deriving DecidableEq, Repr

/-! ## Host operations -/

/-- Conversion of a number to the signed 32-bit integer in which the host keeps the delay
of a timeout: the fraction is dropped, and the result is reduced modulo `2^32` into the range
from `-2^31` to `2^31 - 1`. -/
def toLong (d : ℚ) : Int :=
  let m := (Int.tdiv d.num d.den) % 4294967296
  if m < 2147483648 then m else m - 4294967296

/-- The delay in whole milliseconds that the host applies to a timeout: the converted
number, a negative one counting as `0`. It is the number itself for every whole number from
`0` to `2147483647`; a fraction is cut off and a larger number wraps around. -/
def hostDelay (d : ℚ) : Int :=
  max (toLong d) 0

/-- The host call `setTimeout(cb, delay)` at clock time `now`: registers a timeout under a
fresh handle, due after the whole milliseconds the host makes of `delay`, and returns the
handle. -/
def setTimeout (h : Host α) (args : α) (now : Int) (delay : ℚ) : Nat × Host α :=
  (h.nextId,
    { nextId := h.nextId + 1,
      timers := h.timers ++ [{ id := h.nextId, due := now + hostDelay delay, args := args }] })

/-- The host call `clearTimeout(id)`: revokes the pending timeout with that handle;
`undefined` or a handle that is not pending changes nothing. -/
def clearTimeout (h : Host α) (id : Option Nat) : Host α :=
  match id with
  | none => h
  | some i => { h with timers := h.timers.filter (fun t => t.id != i) }

/-! ## The program -/

/-- The constructor `throttle(fn, wait)`: declares `timerId`, `inThrottle`, `lastTime` (all
`undefined`) and returns the wrapper. The source has no validation and no `throw`. -/
def throttle (wait : ℚ) : Except ThrottleError Closure :=
  .ok { wait := wait, timerId := none, inThrottle := false, lastTime := none }

/-- The world right after construction: no timeout scheduled, `fn` not yet invoked. -/
def World.boot (c : Closure) (s : σ) : World α σ :=
  { c := c, host := { nextId := 0, timers := [] }, target := s, invoked := [] }

/-- The world of a wrapper just returned by `throttle(fn, wait)`, with `fn` in state `s`. -/
def World.fresh (wait : ℚ) (s : σ) : World α σ :=
  World.boot { wait := wait, timerId := none, inThrottle := false, lastTime := none } s

/-- The guard `Date.now() - lastTime >= wait`; with `lastTime` undefined the left side is
`NaN` and the comparison is false. -/
def elapsedGe (now : Int) (lastTime : Option Int) (wait : ℚ) : Bool :=
  match lastTime with
  | none => false
  | some lt => decide (wait ≤ ((now - lt : Int) : ℚ))

/-- The delay `Math.max(wait - (Date.now() - lastTime), 0)`; with `lastTime` undefined it is
`NaN`, which `setTimeout` takes as `0`. -/
def delay (wait : ℚ) (now : Int) (lastTime : Option Int) : ℚ :=
  match lastTime with
  | none => 0
  | some lt => max (wait - ((now - lt : Int) : ℚ)) 0

/-- The function returned by `throttle`, called with `args` while the clock reads `now`. -/
def wrapper (w : World α σ) (args : α) (now : Int) : World α σ :=
  if !w.c.inThrottle then
    { w with c := { w.c with lastTime := some now, inThrottle := true } }
  else
    let h := clearTimeout w.host w.c.timerId
    let r := setTimeout h args now (delay w.c.wait now w.c.lastTime)
    { w with c := { w.c with timerId := some r.1 }, host := r.2 }

/-- The arrow function passed to `setTimeout`, run with the captured `args`. An exception of
`fn` is not caught: it is the result of the callback and the assignment to `lastTime` is
skipped. -/
def timerCallback (fn : α → σ → Except ε Unit × σ) (w : World α σ) (args : α)
    (now done : Int) : Except ε Unit × World α σ :=
  if elapsedGe now w.c.lastTime w.c.wait then
    match fn args w.target with
    | (.ok _, s) =>
      (.ok (), { w with target := s, invoked := w.invoked ++ [{ args := args, time := now }],
                        c := { w.c with lastTime := some done } })
    | (.error e, s) =>
      (.error e, { w with target := s, invoked := w.invoked ++ [{ args := args, time := now }] })
  else
    (.ok (), w)

/-- One event. A timeout that is not pending cannot fire, and a timeout fires at most once:
when its callback runs it stops being pending. -/
def step (fn : α → σ → Except ε Unit × σ) (w : World α σ) : Event α → Except ε Unit × World α σ
  | .call args now => (.ok (), wrapper w args now)
  | .fire id now done =>
    match w.host.timers.find? (fun t => t.id == id) with
    | none => (.ok (), w)
    | some t =>
      timerCallback fn
        { w with host := { w.host with timers := w.host.timers.filter (fun t => t.id != id) } }
        t.args now done

/-- A sequence of events; an exception escaping a timer callback goes to the host and the
run goes on. -/
def run (fn : α → σ → Except ε Unit × σ) (w : World α σ) (es : List (Event α)) : World α σ :=
  es.foldl (fun w e => (step fn w e).2) w

/-- The clock never goes back: every reading is at least `t` and at least the one before. -/
def clockFrom (t : Int) : List (Event α) → Bool
  | [] => true
  | .call _ now :: es => decide (t ≤ now) && clockFrom now es
  | .fire _ now done :: es => decide (t ≤ now) && decide (now ≤ done) && clockFrom done es

/-- A non-decreasing clock over a whole event sequence. -/
def monotoneClock : List (Event α) → Bool
  | [] => true
  | .call a now :: es => clockFrom now (.call a now :: es)
  | .fire i now done :: es => clockFrom now (.fire i now done :: es)

/-- The target callback returns normally on every input. -/
def returnsNormally (fn : α → σ → Except ε Unit × σ) : Prop :=
  ∀ a s, ∃ s1, fn a s = (.ok (), s1)

/-- Any two consecutive invocations are at least `wait` apart. -/
def spaced (wait : ℚ) (l : List (Invocation α)) : Prop :=
  List.Chain' (fun i j => (i.time : ℚ) + wait ≤ j.time) l

/-- Structural invariant of the reachable worlds: at most one timeout is pending and
`timerId` names it; a pending timeout or a recorded invocation means the first call has
happened; after the first call `lastTime` holds a number. -/
def Coherent (w : World α σ) : Prop :=
  (w.host.timers = [] ∨ ∃ t, w.host.timers = [t] ∧ w.c.timerId = some t.id) ∧
  ((w.host.timers ≠ [] ∨ w.invoked ≠ []) → w.c.inThrottle = true) ∧
  (w.c.inThrottle = true → ∃ lt, w.c.lastTime = some lt)

/-- Timing invariant: the recorded invocations are spaced by `wait` and `lastTime` is not
earlier than the latest of them. -/
def Paced (w : World α σ) : Prop :=
  spaced w.c.wait w.invoked ∧
  ∀ i, w.invoked.getLast? = some i → ∃ lt, w.c.lastTime = some lt ∧ i.time ≤ lt

/-- Scheduling invariant: a pending timeout is due no earlier than `wait` after `lastTime`,
so its guard passes whenever it fires at or after its due time. -/
def Due (w : World α σ) : Prop :=
  ∀ t ∈ w.host.timers, ∃ lt, w.c.lastTime = some lt ∧ (lt : ℚ) + w.c.wait ≤ t.due

/-- The closure is not ahead of the clock: `lastTime`, once set, is at most the reading `t`. -/
def Behind (t : Int) (w : World α σ) : Prop :=
  ∀ lt, w.c.lastTime = some lt → lt ≤ t

/-- A window of whole milliseconds that the host keeps exactly as a delay. -/
def wholeWindow (wait : ℚ) : Prop :=
  ∃ n : Int, wait = n ∧ n ≤ 2147483647

/-- Construction followed by a sequence of events: `throttle(fn, wait)` and then the run
of the returned wrapper from the world in which `fn` has state `s`. -/
def launch (fn : α → σ → Except ε Unit × σ) (wait : ℚ) (s : σ) (es : List (Event α)) :
    Except ThrottleError (World α σ) :=
  match throttle wait with
  | .error e => .error e
  | .ok c => .ok (run fn (World.boot c s) es)

/-- A burst of wrapper calls, each with its arguments and its clock reading. -/
def burst (cs : List (α × Int)) : List (Event α) :=
  cs.map (fun c => .call c.1 c.2)

/-- A sequence of timer firings, each with the handle and its two clock readings. -/
def firings (fs : List (Nat × Int × Int)) : List (Event α) :=
  fs.map (fun f => .fire f.1 f.2.1 f.2.2)

/-- A target callback that records its argument and returns normally. -/
def recorder (a : Nat) (s : List Nat) : Except Nat Unit × List Nat :=
  (.ok (), s ++ [a])

/-- A target callback that records its argument and then throws it. -/
def thrower (a : Nat) (s : List Nat) : Except Nat Unit × List Nat :=
  (.error a, s ++ [a])

end Throttle

namespace Api

variable {β κ γ τ ρ ν : Type}

/-! ## Data model of `api.js` -/

/-- An error value as the executor handles it: what it carries, and its `aborted` property
(`none` while the property is not set). -/
structure ApiError (ρ : Type) where
  content : ρ
  aborted : Option Bool
deriving DecidableEq, Repr

/-- The object literal `{ aborted: true }`. -/
structure AbortMark where
  aborted : Bool
deriving DecidableEq, Repr

/-- The last argument when it is an object: its `abort` property if that is a function
(`typeof abort === "function"`), and the remaining properties (`...config`). Calling `abort`
hands the cancel function to the caller and may throw. -/
structure RequestConfig (κ γ ρ : Type) where
  abort : Option (γ → Except (ApiError ρ) Unit)
  rest : κ

/-- The `config` object handed to `fn`: the rest properties, and `cancelToken` once set. -/
structure SentConfig (κ τ : Type) where
  rest : κ
  cancelToken : Option τ
deriving DecidableEq, Repr

/-- An argument of the executor: `undefined` or `null`, another value without an `abort`
function, or a request config object. -/
inductive Arg (β κ γ ρ : Type) where
  | nullish
  | value (b : β)
  | config (c : RequestConfig κ γ ρ)

/-- The outcome of an `async` function: it resolves (`ok`) or rejects (`error`). -/
abbrev Outcome (ρ ν : Type) := Except (ApiError ρ) ν

/-! ## The program -/

/-- The helper `didAbort(error)`, that is `axios.isCancel(error) && { aborted: true }`:
`false` (here `none`) or the object literal. `axios.isCancel` belongs to the axios library
and is a parameter. -/
def didAbort (isCancel : ApiError ρ → Bool) (error : ApiError ρ) : Option AbortMark :=
  if isCancel error then some { aborted := true } else none

/-- The statement `const { abort, ...config } = originalConfig`, where `originalConfig` is
`args[args.length - 1]`. Destructuring `undefined` or `null` throws the host's `TypeError`;
`props` gives the own properties of a value that is not a config object. -/
def destructure (typeError : ApiError ρ) (props : β → κ) (args : List (Arg β κ γ ρ)) :
    Outcome ρ (Option (γ → Except (ApiError ρ) Unit) × SentConfig κ τ) :=
  match args.getLast? with
  | none => .error typeError
  | some .nullish => .error typeError
  | some (.value b) => .ok (none, { rest := props b, cancelToken := none })
  | some (.config c) => .ok (c.abort, { rest := c.rest, cancelToken := none })

/-- Lines 21 to 28 and the choice of positional arguments: everything the executor does
before it calls `fn`. `source` is the result of `getCancelSource()`. The result is the
argument list of the call of `fn`, or the exception that ended the executor before it. -/
def prepare (source : γ × τ) (typeError : ApiError ρ) (props : β → κ)
    (args : List (Arg β κ γ ρ)) : Outcome ρ (List (Arg β κ γ ρ) × SentConfig κ τ) :=
  match destructure typeError props args with
  | .error e => .error e
  | .ok (abort, config) =>
    let armed : Outcome ρ (SentConfig κ τ) :=
      match abort with
      | none => .ok config
      | some f =>
        match f source.1 with
        | .error e => .error e
        | .ok _ => .ok { config with cancelToken := some source.2 }
    match armed with
    | .error e => .error e
    | .ok config => if args.length > 2 then .ok (args.take 2, config) else .ok (args.take 1, config)

/-- The `catch` block: `console.log`, then `error.aborted = true` when `didAbort(error)` is
truthy, then `throw error`. Returns the rethrown error and the console line. -/
def handleError (isCancel : ApiError ρ → Bool) (error : ApiError ρ) :
    ApiError ρ × List (ApiError ρ) :=
  if (didAbort isCancel error).isSome then
    ({ error with aborted := some true }, [error])
  else
    (error, [error])

/-- The `executor` returned by `withAbort(fn)`: its outcome and what it wrote to the
console. -/
def withAbort (isCancel : ApiError ρ → Bool) (source : γ × τ) (typeError : ApiError ρ)
    (props : β → κ) (fn : List (Arg β κ γ ρ) → SentConfig κ τ → Outcome ρ ν)
    (args : List (Arg β κ γ ρ)) : Outcome ρ ν × List (ApiError ρ) :=
  match prepare source typeError props args with
  | .error e => (.error e, [])
  | .ok (pos, config) =>
    match fn pos config with
    | .ok v => (.ok v, [])
    | .error e => ((.error (handleError isCancel e).1), (handleError isCancel e).2)

/-- A cancellation test for the examples: content `0` marks a cancelled request. -/
def cancelled (e : ApiError Nat) : Bool :=
  e.content == 0

/-- A request function for the examples: it rejects with the cancellation error when the
cancel token is set and with error `4` otherwise. -/
def rejecting (_pos : List (Arg Nat Nat Unit Nat)) (config : SentConfig Nat Nat) :
    Outcome Nat Nat :=
  match config.cancelToken with
  | some _ => .error { content := 0, aborted := none }
  | none => .error { content := 4, aborted := none }

/-- An argument list for the examples: a url and a config whose `abort` is a function. -/
def getArgs : List (Arg Nat Nat Unit Nat) :=
  [.value 1, .config { abort := some (fun _ => .ok ()), rest := 2 }]

end Api

/-! # Theorems about `throttle` -/

namespace Throttle

variable {α σ ε : Type}

/-! ## Elementary facts -/

theorem wrapper_first (w : World α σ) (a : α) (now : Int) (h : w.c.inThrottle = false) :
    wrapper w a now = { w with c := { w.c with lastTime := some now, inThrottle := true } } := by
  simp [wrapper, h]

theorem wrapper_next (w : World α σ) (a : α) (now : Int) (h : w.c.inThrottle = true)
    (hc : Coherent w) :
    wrapper w a now =
      { w with
        c := { w.c with timerId := some w.host.nextId }
        host := { nextId := w.host.nextId + 1,
                  timers := [{ id := w.host.nextId,
                               due := now + hostDelay (delay w.c.wait now w.c.lastTime),
                               args := a }] } } := by
  rcases hc.1 with h0 | ⟨t, ht, hid⟩
  · cases hti : w.c.timerId <;> simp [wrapper, h, clearTimeout, setTimeout, h0, hti]
  · simp [wrapper, h, clearTimeout, setTimeout, ht, hid]

theorem step_fire_none (fn : α → σ → Except ε Unit × σ) (w : World α σ) (id : Nat)
    (now done : Int) (h : w.host.timers.find? (fun t => t.id == id) = none) :
    step fn w (.fire id now done) = (.ok (), w) := by
  simp only [step, h]

theorem step_fire_some (fn : α → σ → Except ε Unit × σ) (w : World α σ) (t : Timer α)
    (now done : Int) (h : w.host.timers = [t]) :
    step fn w (.fire t.id now done) =
      timerCallback fn { w with host := { w.host with timers := [] } } t.args now done := by
  simp [step, h]

theorem run_cons (fn : α → σ → Except ε Unit × σ) (w : World α σ) (e : Event α)
    (es : List (Event α)) : run fn w (e :: es) = run fn (step fn w e).2 es := rfl

/-! ## What a timer callback can change -/

theorem timerCallback_blocked (fn : α → σ → Except ε Unit × σ) (w : World α σ) (a : α)
    (now done : Int) (h : elapsedGe now w.c.lastTime w.c.wait = false) :
    timerCallback fn w a now done = (.ok (), w) := by
  simp [timerCallback, h]

theorem timerCallback_ok (fn : α → σ → Except ε Unit × σ) (w : World α σ) (a : α)
    (now done : Int) (s1 : σ) (h : elapsedGe now w.c.lastTime w.c.wait = true)
    (hfn : fn a w.target = (.ok (), s1)) :
    timerCallback fn w a now done =
      (.ok (), { w with target := s1, invoked := w.invoked ++ [{ args := a, time := now }],
                        c := { w.c with lastTime := some done } }) := by
  simp [timerCallback, h, hfn]

theorem timerCallback_error (fn : α → σ → Except ε Unit × σ) (w : World α σ) (a : α)
    (now done : Int) (e : ε) (s1 : σ) (h : elapsedGe now w.c.lastTime w.c.wait = true)
    (hfn : fn a w.target = (.error e, s1)) :
    timerCallback fn w a now done =
      (.error e, { w with target := s1,
                          invoked := w.invoked ++ [{ args := a, time := now }] }) := by
  simp [timerCallback, h, hfn]

theorem timerCallback_frame (fn : α → σ → Except ε Unit × σ) (w : World α σ) (a : α)
    (now done : Int) :
    (timerCallback fn w a now done).2.host = w.host ∧
    (timerCallback fn w a now done).2.c.wait = w.c.wait ∧
    (timerCallback fn w a now done).2.c.timerId = w.c.timerId ∧
    (timerCallback fn w a now done).2.c.inThrottle = w.c.inThrottle ∧
    ((timerCallback fn w a now done).2.c.lastTime = w.c.lastTime ∨
      (timerCallback fn w a now done).2.c.lastTime = some done) ∧
    ((timerCallback fn w a now done).2.invoked = w.invoked ∨
      (timerCallback fn w a now done).2.invoked = w.invoked ++ [{ args := a, time := now }]) := by
  cases h : elapsedGe now w.c.lastTime w.c.wait
  · simp [timerCallback_blocked fn w a now done h]
  · rcases hfn : fn a w.target with ⟨r, s1⟩
    cases r with
    | ok u => cases u; simp [timerCallback_ok fn w a now done s1 h hfn]
    | error e => simp [timerCallback_error fn w a now done e s1 h hfn]

/-! ## The structural invariant -/

theorem coherent_boot (wait : ℚ) (s : σ) : Coherent (World.fresh (α := α) wait s) := by
  simp [Coherent, World.boot, World.fresh]

theorem coherent_wrapper (w : World α σ) (a : α) (now : Int) (hc : Coherent w) :
    Coherent (wrapper w a now) := by
  cases h : w.c.inThrottle
  · rw [wrapper_first w a now h]
    obtain ⟨h1, h2, _⟩ := hc
    refine ⟨h1, fun _ => rfl, fun _ => ⟨now, rfl⟩⟩
  · rw [wrapper_next w a now h hc]
    obtain ⟨_, _, h3⟩ := hc
    exact ⟨Or.inr ⟨_, rfl, rfl⟩, fun _ => h, h3⟩

theorem coherent_step (fn : α → σ → Except ε Unit × σ) (w : World α σ) (e : Event α)
    (hc : Coherent w) : Coherent (step fn w e).2 := by
  cases e with
  | call a now => exact coherent_wrapper w a now hc
  | fire id now done =>
    cases hf : w.host.timers.find? (fun t => t.id == id) with
    | none => rw [step_fire_none fn w id now done hf]; exact hc
    | some t =>
      have hid : t.id = id := by simpa using List.find?_some hf
      obtain ⟨h1, h2, h3⟩ := hc
      rcases h1 with h0 | ⟨t1, ht1, _⟩
      · simp [h0] at hf
      · have ht : t1 = t := by
          rw [ht1] at hf
          simp only [List.find?_cons] at hf
          split at hf <;> simp_all
        subst ht
        subst hid
        rw [step_fire_some fn w t1 now done ht1]
        obtain ⟨f1, _, _, f4, f5, _⟩ :=
          timerCallback_frame fn { w with host := { w.host with timers := [] } } t1.args now done
        have hin : w.c.inThrottle = true := h2 (Or.inl (by simp [ht1]))
        refine ⟨Or.inl (by rw [f1]), fun _ => by rw [f4]; exact hin, fun _ => ?_⟩
        rcases f5 with f5 | f5
        · rw [f5]; exact h3 hin
        · exact ⟨done, f5⟩

theorem coherent_run (fn : α → σ → Except ε Unit × σ) (es : List (Event α)) :
    ∀ w : World α σ, Coherent w → Coherent (run fn w es) := by
  induction es with
  | nil => intro w hc; exact hc
  | cons e es ih => intro w hc; exact ih _ (coherent_step fn w e hc)

theorem wait_step (fn : α → σ → Except ε Unit × σ) (w : World α σ) (e : Event α) :
    (step fn w e).2.c.wait = w.c.wait := by
  cases e with
  | call a now => simp only [step, wrapper]; split <;> rfl
  | fire id now done =>
    simp only [step]
    split
    · rfl
    · exact (timerCallback_frame fn _ _ now done).2.1

theorem wait_run (fn : α → σ → Except ε Unit × σ) (es : List (Event α)) :
    ∀ w : World α σ, (run fn w es).c.wait = w.c.wait := by
  induction es with
  | nil => intro w; rfl
  | cons e es ih => intro w; rw [run_cons, ih, wait_step]

theorem launch_eq (fn : α → σ → Except ε Unit × σ) (wait : ℚ) (s : σ) (es : List (Event α)) :
    launch fn wait s es =
      .ok (run fn (World.fresh wait s) es) :=
  rfl

theorem coherent_launch (fn : α → σ → Except ε Unit × σ) (wait : ℚ) (s : σ)
    (es : List (Event α)) :
    Coherent (run fn (World.fresh wait s) es) :=
  coherent_run fn es _ (coherent_boot wait s)

/-! ## The timing invariant -/

theorem fire_invokes_guard (fn : α → σ → Except ε Unit × σ) (w : World α σ) (id : Nat)
    (now done : Int) (h : (step fn w (.fire id now done)).2.invoked ≠ w.invoked) :
    ∃ lt, w.c.lastTime = some lt ∧ (lt : ℚ) + w.c.wait ≤ now := by
  cases hf : w.host.timers.find? (fun t => t.id == id) with
  | none => rw [step_fire_none fn w id now done hf] at h; exact absurd rfl h
  | some t =>
    simp only [step, hf] at h
    cases hg : elapsedGe now w.c.lastTime w.c.wait with
    | false =>
      rw [timerCallback_blocked fn _ _ now done (by simpa using hg)] at h
      exact absurd rfl h
    | true =>
      unfold elapsedGe at hg
      cases hl : w.c.lastTime with
      | none => simp [hl] at hg
      | some lt =>
        refine ⟨lt, rfl, ?_⟩
        simp only [hl, decide_eq_true_eq] at hg
        push_cast at hg
        linarith

theorem paced_boot (wait : ℚ) (s : σ) : Paced (World.fresh (α := α) wait s) := by
  simp [Paced, spaced, World.boot, World.fresh]

theorem paced_wrapper (w : World α σ) (a : α) (now : Int) (hc : Coherent w) (hp : Paced w) :
    Paced (wrapper w a now) := by
  cases h : w.c.inThrottle
  · rw [wrapper_first w a now h]
    have hnil : w.invoked = [] := by
      by_contra hne
      have := hc.2.1 (Or.inr hne)
      simp [h] at this
    simp [Paced, spaced, hnil]
  · rw [wrapper_next w a now h hc]
    exact hp

theorem paced_timerCallback (fn : α → σ → Except ε Unit × σ) (hfn : returnsNormally fn)
    (w : World α σ) (a : α) (now done : Int) (hnd : now ≤ done) (hp : Paced w) :
    Paced (timerCallback fn w a now done).2 := by
  cases hg : elapsedGe now w.c.lastTime w.c.wait with
  | false => rw [timerCallback_blocked fn w a now done hg]; exact hp
  | true =>
    obtain ⟨s1, hs1⟩ := hfn a w.target
    rw [timerCallback_ok fn w a now done s1 hg hs1]
    obtain ⟨hp1, hp2⟩ := hp
    refine ⟨?_, ?_⟩
    · show List.Chain' _ (w.invoked ++ [_])
      rw [List.chain'_append]
      refine ⟨hp1, List.chain'_singleton _, ?_⟩
      intro x hx y hy
      obtain ⟨lt, hlt, hxl⟩ := hp2 x (by simpa using hx)
      simp only [List.head?_cons, Option.mem_def, Option.some.injEq] at hy
      subst hy
      simp only [elapsedGe, hlt, decide_eq_true_eq] at hg
      push_cast at hg
      have hxq : (x.time : ℚ) ≤ lt := by exact_mod_cast hxl
      show (x.time : ℚ) + w.c.wait ≤ now
      linarith
    · intro i hi
      have hi2 : i = { args := a, time := now } := by
        have := hi
        simp only [List.getLast?_append, List.getLast?_singleton] at this
        simpa [Option.or] using this.symm
      subst hi2
      exact ⟨done, rfl, hnd⟩

theorem paced_step (fn : α → σ → Except ε Unit × σ) (hfn : returnsNormally fn)
    (w : World α σ) (e : Event α) (t : Int) (hclk : clockFrom t [e] = true)
    (hc : Coherent w) (hp : Paced w) : Paced (step fn w e).2 := by
  cases e with
  | call a now => exact paced_wrapper w a now hc hp
  | fire id now done =>
    have hnd : now ≤ done := by
      simp only [clockFrom, Bool.and_true, Bool.and_eq_true, decide_eq_true_eq] at hclk
      exact hclk.2
    simp only [step]
    split
    · exact hp
    · exact paced_timerCallback fn hfn _ _ now done hnd hp

theorem paced_run (fn : α → σ → Except ε Unit × σ) (hfn : returnsNormally fn)
    (es : List (Event α)) :
    ∀ (w : World α σ) (t : Int), clockFrom t es = true → Coherent w → Paced w →
      Paced (run fn w es) := by
  induction es with
  | nil => intro w t _ _ hp; exact hp
  | cons e es ih =>
    intro w t hclk hc hp
    cases e with
    | call a now =>
      simp only [clockFrom, Bool.and_eq_true, decide_eq_true_eq] at hclk
      exact ih _ now hclk.2 (coherent_step fn w _ hc)
        (paced_step fn hfn w _ t (by simp [clockFrom, hclk.1]) hc hp)
    | fire id now done =>
      simp only [clockFrom, Bool.and_eq_true, decide_eq_true_eq] at hclk
      exact ih _ done hclk.2 (coherent_step fn w _ hc)
        (paced_step fn hfn w _ t (by simp [clockFrom, hclk.1]) hc hp)

theorem clockFrom_of_monotoneClock (es : List (Event α)) (h : monotoneClock es = true) :
    ∃ t, clockFrom t es = true := by
  cases es with
  | nil => exact ⟨0, rfl⟩
  | cons e es =>
    cases e with
    | call a now => exact ⟨now, h⟩
    | fire id now done => exact ⟨now, h⟩

theorem run_firings_idle (fn : α → σ → Except ε Unit × σ) (fs : List (Nat × Int × Int)) :
    ∀ w : World α σ, w.host.timers = [] → run fn w (firings fs) = w := by
  induction fs with
  | nil => intro w _; rfl
  | cons f fs ih =>
    intro w h
    have hs : step fn w (.fire f.1 f.2.1 f.2.2) = (.ok (), w) :=
      step_fire_none fn w _ _ _ (by simp [h])
    show run fn (step fn w (.fire f.1 f.2.1 f.2.2)).2 (firings fs) = w
    rw [hs]
    exact ih w h

/-! ## The host delay -/

theorem hostDelay_whole (k : Int) (h0 : 0 ≤ k) (h1 : k ≤ 2147483647) :
    hostDelay (k : ℚ) = k := by
  simp only [hostDelay, toLong, Rat.intCast_num, Rat.intCast_den, Nat.cast_one, Int.tdiv_one]
  have hk : k % 4294967296 = k := Int.emod_eq_of_lt h0 (by omega)
  rw [hk]
  simp only [show k < 2147483648 by omega, if_true]
  omega

theorem delay_whole (n now lt : Int) :
    delay (n : ℚ) now (some lt) = ((max (n - (now - lt)) 0 : Int) : ℚ) := by
  simp only [delay]
  push_cast
  rfl

theorem hostDelay_delay_whole (n now lt : Int) (hn : n ≤ 2147483647) (hlt : lt ≤ now) :
    hostDelay (delay (n : ℚ) now (some lt)) = max (n - (now - lt)) 0 := by
  rw [delay_whole]
  exact hostDelay_whole _ (le_max_right _ _) (by omega)

theorem hostDelay_delay_elapsed (wait : ℚ) (now lt : Int)
    (h : wait ≤ ((now - lt : Int) : ℚ)) : hostDelay (delay wait now (some lt)) = 0 := by
  have h0 : delay wait now (some lt) = ((0 : Int) : ℚ) := by
    simp only [delay, Int.cast_zero]
    exact max_eq_right (by linarith)
  rw [h0]
  exact hostDelay_whole 0 (le_refl _) (by omega)

/-! ## Scheduling -/

theorem timerCallback_invoked (fn : α → σ → Except ε Unit × σ) (w : World α σ) (a : α)
    (now done : Int) (h : elapsedGe now w.c.lastTime w.c.wait = true) :
    (timerCallback fn w a now done).2.invoked = w.invoked ++ [{ args := a, time := now }] ∧
    (timerCallback fn w a now done).2.host = w.host := by
  rcases hfn : fn a w.target with ⟨r, s1⟩
  cases r with
  | ok u => cases u; simp [timerCallback_ok fn w a now done s1 h hfn]
  | error e => simp [timerCallback_error fn w a now done e s1 h hfn]

theorem run_append (fn : α → σ → Except ε Unit × σ) (w : World α σ) (es fs : List (Event α)) :
    run fn w (es ++ fs) = run fn (run fn w es) fs := by
  simp [run, List.foldl_append]

theorem due_boot (wait : ℚ) (s : σ) : Due (World.fresh (α := α) wait s) := by
  simp [Due, World.boot, World.fresh]

theorem behind_boot (wait : ℚ) (s : σ) (t : Int) : Behind t (World.fresh (α := α) wait s) := by
  simp [Behind, World.boot, World.fresh]

theorem due_wrapper (w : World α σ) (a : α) (now : Int) (hc : Coherent w)
    (hw : wholeWindow w.c.wait) (hb : Behind now w) : Due (wrapper w a now) := by
  cases h : w.c.inThrottle
  · rw [wrapper_first w a now h]
    have hnil : w.host.timers = [] := by
      by_contra hne
      have := hc.2.1 (Or.inl hne)
      simp [h] at this
    intro t ht
    simp [hnil] at ht
  · rw [wrapper_next w a now h hc]
    obtain ⟨lt, hlt⟩ := hc.2.2 h
    obtain ⟨n, hn, hmax⟩ := hw
    have hle : lt ≤ now := hb lt hlt
    intro t ht
    simp only [List.mem_singleton] at ht
    subst ht
    refine ⟨lt, hlt, ?_⟩
    show (lt : ℚ) + w.c.wait ≤ ((now + hostDelay (delay w.c.wait now w.c.lastTime) : Int) : ℚ)
    rw [hlt, hn, hostDelay_delay_whole n now lt hmax hle]
    have hz : lt + n ≤ now + max (n - (now - lt)) 0 := by omega
    exact_mod_cast hz

theorem behind_wrapper (w : World α σ) (a : α) (t now : Int) (hc : Coherent w)
    (ht : t ≤ now) (hb : Behind t w) : Behind now (wrapper w a now) := by
  cases h : w.c.inThrottle
  · rw [wrapper_first w a now h]
    intro lt hlt
    simp only [Option.some.injEq] at hlt
    omega
  · rw [wrapper_next w a now h hc]
    intro lt hlt
    exact le_trans (hb lt hlt) ht

theorem step_fire_frame (fn : α → σ → Except ε Unit × σ) (w : World α σ) (id : Nat)
    (now done : Int) :
    (step fn w (.fire id now done)).2.c.lastTime = w.c.lastTime ∨
    (step fn w (.fire id now done)).2.c.lastTime = some done := by
  simp only [step]
  split
  · exact Or.inl rfl
  · exact (timerCallback_frame fn _ _ now done).2.2.2.2.1

theorem behind_fire (fn : α → σ → Except ε Unit × σ) (w : World α σ) (id : Nat)
    (t now done : Int) (ht : t ≤ now) (hnd : now ≤ done) (hb : Behind t w) :
    Behind done (step fn w (.fire id now done)).2 := by
  intro lt hlt
  rcases step_fire_frame fn w id now done with h | h
  · rw [h] at hlt
    have := hb lt hlt
    omega
  · rw [h] at hlt
    simp only [Option.some.injEq] at hlt
    omega

theorem due_fire (fn : α → σ → Except ε Unit × σ) (w : World α σ) (id : Nat)
    (now done : Int) (hc : Coherent w) (hd : Due w) :
    Due (step fn w (.fire id now done)).2 := by
  cases hf : w.host.timers.find? (fun t => t.id == id) with
  | none => rw [step_fire_none fn w id now done hf]; exact hd
  | some t =>
    have hid : t.id = id := by simpa using List.find?_some hf
    rcases hc.1 with h0 | ⟨t1, ht1, _⟩
    · simp [h0] at hf
    · have ht : t1 = t := by
        rw [ht1] at hf
        simp only [List.find?_cons] at hf
        split at hf <;> simp_all
      subst ht
      subst hid
      rw [step_fire_some fn w t1 now done ht1]
      have hh := (timerCallback_frame fn
        { w with host := { w.host with timers := [] } } t1.args now done).1
      intro t ht
      rw [hh] at ht
      simp at ht

theorem due_run (fn : α → σ → Except ε Unit × σ) (es : List (Event α)) :
    ∀ (w : World α σ) (t : Int), clockFrom t es = true → Coherent w → Behind t w → Due w →
      wholeWindow w.c.wait → Due (run fn w es) := by
  induction es with
  | nil => intro w t _ _ _ hd _; exact hd
  | cons e es ih =>
    intro w t hclk hc hb hd hw
    have hw2 : wholeWindow (step fn w e).2.c.wait := by rw [wait_step]; exact hw
    cases e with
    | call a now =>
      simp only [clockFrom, Bool.and_eq_true, decide_eq_true_eq] at hclk
      exact ih _ now hclk.2 (coherent_step fn w _ hc) (behind_wrapper w a t now hc hclk.1 hb)
        (due_wrapper w a now hc hw (fun lt hlt => le_trans (hb lt hlt) hclk.1)) hw2
    | fire id now done =>
      simp only [clockFrom, Bool.and_eq_true, decide_eq_true_eq] at hclk
      exact ih _ done hclk.2 (coherent_step fn w _ hc)
        (behind_fire fn w id t now done hclk.1.1 hclk.1.2 hb) (due_fire fn w id now done hc hd)
        hw2

theorem fire_passing (fn : α → σ → Except ε Unit × σ) (w : World α σ) (tm : Timer α)
    (now done : Int) (ht : w.host.timers = [tm])
    (hg : elapsedGe now w.c.lastTime w.c.wait = true) :
    (step fn w (.fire tm.id now done)).2.invoked =
      w.invoked ++ [{ args := tm.args, time := now }] ∧
    (step fn w (.fire tm.id now done)).2.host.timers = [] ∧
    ((fn tm.args w.target).1 = .ok () →
      (step fn w (.fire tm.id now done)).2.c.lastTime = some done) := by
  rw [step_fire_some fn w tm now done ht]
  obtain ⟨h1, h2⟩ := timerCallback_invoked fn
    { w with host := { w.host with timers := [] } } tm.args now done hg
  rw [h1, h2]
  refine ⟨rfl, rfl, ?_⟩
  intro hok
  rcases hfn : fn tm.args w.target with ⟨r, s1⟩
  rw [hfn] at hok
  simp only at hok
  subst hok
  rw [timerCallback_ok fn { w with host := { w.host with timers := [] } } tm.args now done
    s1 hg hfn]

theorem fire_when_due (fn : α → σ → Except ε Unit × σ) (w : World α σ) (tm : Timer α)
    (now done : Int) (ht : w.host.timers = [tm]) (hd : Due w) (hnow : tm.due ≤ now) :
    (step fn w (.fire tm.id now done)).2.invoked =
      w.invoked ++ [{ args := tm.args, time := now }] ∧
    (step fn w (.fire tm.id now done)).2.host.timers = [] := by
  obtain ⟨lt, hlt, hle⟩ := hd tm (by simp [ht])
  have hg : elapsedGe now w.c.lastTime w.c.wait = true := by
    simp only [elapsedGe, hlt, decide_eq_true_eq]
    have hq : (tm.due : ℚ) ≤ now := by exact_mod_cast hnow
    push_cast
    linarith
  exact ⟨(fire_passing fn w tm now done ht hg).1, (fire_passing fn w tm now done ht hg).2.1⟩

theorem run_burst_pending (fn : α → σ → Except ε Unit × σ) (cs : List (α × Int)) :
    ∀ w : World α σ, Coherent w → w.host.timers ≠ [] →
      ∃ tm, (run fn w (burst cs)).host.timers = [tm] := by
  induction cs with
  | nil =>
    intro w hc hne
    rcases hc.1 with h0 | ⟨t, ht, _⟩
    · exact absurd h0 hne
    · exact ⟨t, ht⟩
  | cons c cs ih =>
    intro w hc hne
    have hin : w.c.inThrottle = true := hc.2.1 (Or.inl hne)
    show ∃ tm, (run fn (wrapper w c.1 c.2) (burst cs)).host.timers = [tm]
    refine ih _ (coherent_wrapper w c.1 c.2 hc) ?_
    rw [wrapper_next w c.1 c.2 hin hc]
    simp

theorem run_burst_frame (fn : α → σ → Except ε Unit × σ) (cs : List (α × Int)) :
    ∀ w : World α σ, Coherent w → w.c.inThrottle = true →
      (run fn w (burst cs)).invoked = w.invoked ∧
      (run fn w (burst cs)).c.lastTime = w.c.lastTime ∧
      (run fn w (burst cs)).c.wait = w.c.wait ∧
      (run fn w (burst cs)).c.inThrottle = true := by
  induction cs with
  | nil => intro w _ h; exact ⟨rfl, rfl, rfl, h⟩
  | cons c cs ih =>
    intro w hc hin
    show (run fn (wrapper w c.1 c.2) (burst cs)).invoked = w.invoked ∧
      (run fn (wrapper w c.1 c.2) (burst cs)).c.lastTime = w.c.lastTime ∧
      (run fn (wrapper w c.1 c.2) (burst cs)).c.wait = w.c.wait ∧
      (run fn (wrapper w c.1 c.2) (burst cs)).c.inThrottle = true
    have h := ih _ (coherent_wrapper w c.1 c.2 hc)
      (by rw [wrapper_next w c.1 c.2 hin hc]; exact hin)
    rw [wrapper_next w c.1 c.2 hin hc] at h
    rw [wrapper_next w c.1 c.2 hin hc]
    exact h

theorem run_burst_last (fn : α → σ → Except ε Unit × σ) (cs : List (α × Int)) :
    ∀ (w : World α σ) (hne : cs ≠ []), Coherent w → w.c.inThrottle = true →
      ∃ id, (run fn w (burst cs)).host.timers =
        [{ id := id,
           due := (cs.getLast hne).2 +
             hostDelay (delay w.c.wait (cs.getLast hne).2 w.c.lastTime),
           args := (cs.getLast hne).1 }] := by
  induction cs with
  | nil => intro w hne; exact absurd rfl hne
  | cons c cs ih =>
    intro w hne hc hin
    show ∃ id, (run fn (wrapper w c.1 c.2) (burst cs)).host.timers = _
    cases cs with
    | nil =>
      refine ⟨w.host.nextId, ?_⟩
      show (wrapper w c.1 c.2).host.timers = _
      rw [wrapper_next w c.1 c.2 hin hc]
      rfl
    | cons d ds =>
      have h := ih (wrapper w c.1 c.2) (by simp) (coherent_wrapper w c.1 c.2 hc)
        (by rw [wrapper_next w c.1 c.2 hin hc]; exact hin)
      rw [wrapper_next w c.1 c.2 hin hc] at h
      rw [wrapper_next w c.1 c.2 hin hc]
      simpa using h

theorem due_launch (fn : α → σ → Except ε Unit × σ) (wait : ℚ) (s : σ)
    (es : List (Event α)) (hw : wholeWindow wait) (hclk : monotoneClock es = true) :
    Due (run fn (World.fresh wait s) es) := by
  obtain ⟨t, ht⟩ := clockFrom_of_monotoneClock es hclk
  exact due_run fn es _ t ht (coherent_boot wait s) (behind_boot wait s t) (due_boot wait s) hw

theorem world_of_launch (fn : α → σ → Except ε Unit × σ) (wait : ℚ) (s : σ)
    (es : List (Event α)) (w : World α σ) (hl : launch fn wait s es = .ok w) :
    w = run fn (World.fresh wait s) es := by
  have h := launch_eq fn wait s es
  rw [hl] at h
  exact Except.ok.inj h

/-! ## Claims -/

/-- C1, the code at the failing input: the first call of the wrapper returned by
`throttle(fn, wait)` does not invoke `fn`. It only stores the clock reading in `lastTime`
and sets `inThrottle`; no timeout is scheduled either, and the state of `fn` is untouched. -/
theorem first_call_skips_fn (fn : α → σ → Except ε Unit × σ) (wait : ℚ) (s : σ) (a : α)
    (now : Int) :
    ∃ w, launch fn wait s [.call a now] = .ok w ∧ w.invoked = [] ∧ w.host.timers = [] ∧
      w.target = s ∧ w.c.lastTime = some now ∧ w.c.inThrottle = true :=
  ⟨_, rfl, rfl, rfl, rfl, rfl, rfl⟩

/-- C3: minimum spacing. For a target callback that returns normally and a non-decreasing
clock, after any interleaving of wrapper calls and timer firings (a timer may fire at any
time) any two consecutive invocations of `fn` are at least `wait` apart; and a further timer
firing that invokes `fn` does so no earlier than `wait` after `lastTime`. -/
theorem min_spacing (fn : α → σ → Except ε Unit × σ) (hfn : returnsNormally fn) (wait : ℚ)
    (s : σ) (es : List (Event α)) (hclk : monotoneClock es = true) :
    ∃ w, launch fn wait s es = .ok w ∧ spaced wait w.invoked ∧
      ∀ id now done, (step fn w (.fire id now done)).2.invoked ≠ w.invoked →
        ∃ lt, w.c.lastTime = some lt ∧ (lt : ℚ) + wait ≤ now := by
  obtain ⟨t, ht⟩ := clockFrom_of_monotoneClock es hclk
  refine ⟨_, launch_eq fn wait s es, ?_, ?_⟩
  · have hp := paced_run fn hfn es _ t ht (coherent_boot wait s) (paced_boot wait s)
    have hw : (run fn (World.fresh wait s) es).c.wait = wait := wait_run fn es _
    have hp1 : spaced (run fn (World.fresh wait s) es).c.wait
        (run fn (World.fresh wait s) es).invoked := hp.1
    rw [hw] at hp1
    exact hp1
  · intro id now done h
    have hw : (run fn (World.fresh wait s) es).c.wait = wait := wait_run fn es _
    have := fire_invokes_guard fn _ id now done h
    rw [hw] at this
    exact this

/-- Witness of C3: a recording callback, `wait = 100`, two bursts and two timer firings. -/
theorem min_spacing_witness :
    returnsNormally recorder ∧
    monotoneClock (α := Nat)
      [.call 1 0, .call 2 30, .fire 0 100 101, .call 3 120, .fire 1 201 205] = true ∧
    ∃ w, launch recorder 100 []
        [.call 1 0, .call 2 30, .fire 0 100 101, .call 3 120, .fire 1 201 205] = .ok w ∧
      spaced 100 w.invoked ∧
      ∀ id now done, (step recorder w (.fire id now done)).2.invoked ≠ w.invoked →
        ∃ lt, w.c.lastTime = some lt ∧ (lt : ℚ) + 100 ≤ now :=
  ⟨fun _ _ => ⟨_, rfl⟩, by decide,
    min_spacing recorder (fun _ _ => ⟨_, rfl⟩) 100 [] _ (by decide)⟩

/-- C5, the code at the failing input: a burst of exactly one call is dropped. After a single
call of a fresh wrapper no timeout is pending, so whatever the host does afterwards `fn` is
never invoked. -/
theorem lone_call_dropped (fn : α → σ → Except ε Unit × σ) (wait : ℚ) (s : σ) (a : α)
    (now : Int) (fs : List (Nat × Int × Int)) :
    ∃ w, launch fn wait s (.call a now :: firings fs) = .ok w ∧ w.invoked = [] ∧
      w.host.timers = [] ∧ w.target = s := by
  refine ⟨_, launch_eq fn wait s _, ?_⟩
  rw [run_cons, run_firings_idle fn fs _ rfl]
  exact ⟨rfl, rfl, rfl⟩

/-- C8: single outstanding timer. In every world reachable from a fresh wrapper by wrapper
calls and timer firings at most one timeout is pending, and `timerId` is its handle; a call
that schedules a timeout leaves that new timeout as the only pending one. -/
theorem single_pending_timer (fn : α → σ → Except ε Unit × σ) (wait : ℚ) (s : σ)
    (es : List (Event α)) :
    ∃ w, launch fn wait s es = .ok w ∧ w.host.timers.length ≤ 1 ∧
      (∀ t ∈ w.host.timers, w.c.timerId = some t.id) ∧
      ∀ a now, w.c.inThrottle = true →
        (wrapper w a now).host.timers =
          [{ id := w.host.nextId, due := now + hostDelay (delay wait now w.c.lastTime),
             args := a }] := by
  have hc := coherent_launch fn wait s es
  have hw : (run fn (World.fresh wait s) es).c.wait = wait := wait_run fn es _
  refine ⟨_, launch_eq fn wait s es, ?_, ?_, ?_⟩
  · rcases hc.1 with h | ⟨t, h, _⟩ <;> simp [h]
  · rcases hc.1 with h | ⟨t, h, hid⟩
    · simp [h]
    · intro t1 ht1
      rw [h] at ht1
      simp only [List.mem_singleton] at ht1
      rw [ht1]; exact hid
  · intro a now hin
    rw [wrapper_next _ a now hin hc, hw]

/-- C9: a failure of `fn` on a deferred fire is not caught and leaves the closure unchanged.
If timeout `id` is pending, the guard passes and `fn` throws `e`, then the timer callback
ends with the exception `e`, and `lastTime`, `inThrottle` and `timerId` keep their values. -/
theorem deferred_failure_propagates (fn : α → σ → Except ε Unit × σ) (w : World α σ)
    (id : Nat) (t : Timer α) (now done : Int) (e : ε) (s1 : σ)
    (hpend : w.host.timers.find? (fun t => t.id == id) = some t)
    (hguard : elapsedGe now w.c.lastTime w.c.wait = true)
    (hthrow : fn t.args w.target = (.error e, s1)) :
    (step fn w (.fire id now done)).1 = .error e ∧
    (step fn w (.fire id now done)).2.c.lastTime = w.c.lastTime ∧
    (step fn w (.fire id now done)).2.c.inThrottle = w.c.inThrottle ∧
    (step fn w (.fire id now done)).2.c.timerId = w.c.timerId ∧
    (step fn w (.fire id now done)).2.invoked = w.invoked ++ [{ args := t.args, time := now }] := by
  have h := timerCallback_error fn
    { w with host := { w.host with timers := w.host.timers.filter (fun t => t.id != id) } }
    t.args now done e s1 hguard hthrow
  simp only [step, hpend]
  rw [h]
  exact ⟨rfl, rfl, rfl, rfl, rfl⟩

/-- Witness of C9: the throwing callback, first call at 0, second at 30, timer fired at 100. -/
theorem deferred_failure_propagates_witness :
    (run thrower (World.fresh 100 []) [.call 1 0, .call 2 30]).host.timers.find?
          (fun t => t.id == 0) = some { id := 0, due := 100, args := 2 } ∧
    (step thrower (run thrower (World.fresh 100 []) [.call 1 0, .call 2 30])
          (.fire 0 100 101)).1 = .error 2 ∧
    (step thrower (run thrower (World.fresh 100 []) [.call 1 0, .call 2 30])
          (.fire 0 100 101)).2.c.lastTime = some 0 :=
  ⟨by decide!,
    (deferred_failure_propagates thrower
      (run thrower (World.fresh 100 []) [.call 1 0, .call 2 30])
      0 { id := 0, due := 100, args := 2 } 100 101 2 [2] (by decide!) (by decide!) rfl).1,
    (deferred_failure_propagates thrower
      (run thrower (World.fresh 100 []) [.call 1 0, .call 2 30])
      0 { id := 0, due := 100, args := 2 } 100 101 2 [2] (by decide!) (by decide!) rfl).2.1⟩

/-- C2, counterexample: a window that is not a whole number of milliseconds,
`wait = 50/3` (that is `1000/60`). The first call is at 0 and one further call at 5, inside
the window. The host cuts the delay `50/3 - 5` down to 11, so the timeout is due at 16;
fired at its due time it finds `16 - 0 >= 50/3` false, is used up, and `fn` is never
invoked. -/
theorem fractional_window_counterexample :
    (0 : ℚ) < 50 / 3 ∧ (5 : ℚ) < 0 + 50 / 3 ∧
    ∃ w tm, launch recorder (50 / 3) [] (.call 1 0 :: burst [(2, 5)]) = .ok w ∧
      w.host.timers = [tm] ∧ tm.due = 16 ∧ tm.args = 2 ∧
      (run recorder w [.fire tm.id tm.due 16]).invoked = [] ∧
      (run recorder w [.fire tm.id tm.due 16]).host.timers = [] :=
  ⟨by norm_num, by norm_num, _, { id := 0, due := 16, args := 2 }, rfl, by decide!, rfl, rfl,
    by decide!, by decide!⟩

/-- A window above the largest delay the host keeps is lost in the same way: with
`wait = 3000000000` and calls at 0 and 30 the delay wraps around to a negative number, the
timeout is due at once, and fired at its due time it does not pass the guard. -/
theorem large_window_lost :
    ∃ w tm, launch recorder 3000000000 [] (.call 1 0 :: burst [(2, 30)]) = .ok w ∧
      w.host.timers = [tm] ∧ tm.due = 30 ∧
      (run recorder w [.fire tm.id tm.due 30]).invoked = [] :=
  ⟨_, { id := 0, due := 30, args := 2 }, rfl, by decide!, rfl, by decide!⟩

/-- C2, amended: suppression and last-call-wins coalescing for a window of whole
milliseconds. With `wait` an integer, `0 < wait ≤ 2147483647`, a first call at `t0` followed
by a non-empty sequence of calls at times strictly inside `(t0, t0 + wait)` invokes nothing
and leaves exactly one pending timeout, due at `t0 + wait` and carrying the arguments of the
last call. When it fires at its due time `fn` is invoked once, at `t0 + wait`, with those
arguments, and no later timer firing adds another invocation. -/
theorem burst_coalesces (fn : α → σ → Except ε Unit × σ) (n : Int) (_hpos : 0 < n)
    (hmax : n ≤ 2147483647) (s : σ) (a0 : α) (t0 : Int) (cs : List (α × Int)) (hne : cs ≠ [])
    (hin : ∀ c ∈ cs, t0 < c.2 ∧ c.2 < t0 + n) :
    ∃ w tm, launch fn (n : ℚ) s (.call a0 t0 :: burst cs) = .ok w ∧ w.host.timers = [tm] ∧
      tm.due = t0 + n ∧ tm.args = (cs.getLast hne).1 ∧ w.invoked = [] ∧
      ∀ done fs, (run fn w (.fire tm.id tm.due done :: firings fs)).invoked =
        [{ args := (cs.getLast hne).1, time := t0 + n }] := by
  have hc1 : Coherent (wrapper (World.fresh (α := α) (n : ℚ) s) a0 t0) :=
    coherent_wrapper _ a0 t0 (coherent_boot (n : ℚ) s)
  have hi1 : (wrapper (World.fresh (α := α) (n : ℚ) s) a0 t0).c.inThrottle = true := rfl
  obtain ⟨id, hid⟩ := run_burst_last fn cs _ hne hc1 hi1
  obtain ⟨f1, f2, f3, _⟩ := run_burst_frame fn cs _ hc1 hi1
  have hlast := hin _ (List.getLast_mem hne)
  have hd : (cs.getLast hne).2 + hostDelay (delay (n : ℚ) (cs.getLast hne).2 (some t0)) =
      t0 + n := by
    rw [hostDelay_delay_whole n _ t0 hmax (le_of_lt hlast.1)]
    omega
  have hid2 : (run fn (wrapper (World.fresh (α := α) (n : ℚ) s) a0 t0) (burst cs)).host.timers =
      [{ id := id, due := t0 + n, args := (cs.getLast hne).1 }] := by
    rw [hid, ← hd]
    rfl
  have hg : elapsedGe (t0 + n)
      (run fn (wrapper (World.fresh (α := α) (n : ℚ) s) a0 t0) (burst cs)).c.lastTime
      (run fn (wrapper (World.fresh (α := α) (n : ℚ) s) a0 t0) (burst cs)).c.wait = true := by
    rw [f2, f3]
    show elapsedGe (t0 + n) (some t0) (n : ℚ) = true
    simp only [elapsedGe, decide_eq_true_eq]
    push_cast
    linarith
  have key : ∀ (done : Int) (fs : List (Nat × Int × Int)),
      (run fn (run fn (wrapper (World.fresh (n : ℚ) s) a0 t0) (burst cs))
        (.fire id (t0 + n) done :: firings fs)).invoked =
        [{ args := (cs.getLast hne).1, time := t0 + n }] := by
    intro done fs
    obtain ⟨g1, g2, _⟩ := fire_passing fn _ _ (t0 + n) done hid2 hg
    rw [run_cons, run_firings_idle fn fs _ g2, g1, f1]
    rfl
  exact ⟨_, _, launch_eq fn (n : ℚ) s _, hid2, rfl, rfl, f1, key⟩

/-- Witness of C2 amended: `wait = 100`, first call at 0, further calls at 30 and 60. -/
theorem burst_coalesces_witness :
    (0 : Int) < 100 ∧ (100 : Int) ≤ 2147483647 ∧ [((2 : Nat), (30 : Int)), (3, 60)] ≠ [] ∧
    (∀ c ∈ [((2 : Nat), (30 : Int)), (3, 60)], 0 < c.2 ∧ c.2 < 0 + 100) ∧
    ∃ w tm, launch recorder ((100 : Int) : ℚ) [] (.call 1 0 :: burst [(2, 30), (3, 60)]) =
        .ok w ∧
      w.host.timers = [tm] ∧ tm.due = 0 + 100 ∧ tm.args = 3 ∧ w.invoked = [] ∧
      ∀ done fs, (run recorder w (.fire tm.id tm.due done :: firings fs)).invoked =
        [{ args := 3, time := 0 + 100 }] :=
  ⟨by decide, by decide, by decide, by decide,
    burst_coalesces recorder 100 (by decide) (by decide) [] 1 0 [(2, 30), (3, 60)]
      (by decide) (by decide)⟩

/-- C4, counterexample: with `wait = 100`, calls at 0 and at 150. The call at 150 comes a
full window after `lastTime`, yet it invokes nothing: it schedules a timeout due at 150 and
`lastTime` stays 0. -/
theorem late_call_counterexample :
    ∃ w, launch recorder 100 [] [.call 1 0, .call 2 150] = .ok w ∧ w.invoked = [] ∧
      w.target = [] ∧ w.c.lastTime = some 0 ∧
      w.host.timers = [{ id := 0, due := 150, args := 2 }] :=
  ⟨_, rfl, by decide!, by decide!, by decide!, by decide!⟩

/-- C4, amended: for `wait ≥ 0`, a call other than the first that arrives when at least
`wait` has elapsed since `lastTime` does not invoke `fn` itself and leaves `lastTime`
unchanged; it leaves a single pending timeout with zero delay (due at the call time) that
carries its own arguments. When that timeout fires at or after the call time, `fn` is
invoked with those arguments, and `lastTime` becomes the clock reading taken after `fn`
has returned normally. -/
theorem late_call_defers (fn : α → σ → Except ε Unit × σ) (wait : ℚ) (_hw : 0 ≤ wait)
    (s : σ) (es : List (Event α)) (w : World α σ) (hl : launch fn wait s es = .ok w)
    (a : α) (now lt : Int) (hin : w.c.inThrottle = true) (hlt : w.c.lastTime = some lt)
    (hel : wait ≤ (now : ℚ) - (lt : ℚ)) :
    (wrapper w a now).invoked = w.invoked ∧ (wrapper w a now).target = w.target ∧
    (wrapper w a now).c.lastTime = some lt ∧
    (wrapper w a now).host.timers = [{ id := w.host.nextId, due := now, args := a }] ∧
    ∀ now2 done, now ≤ now2 →
      (step fn (wrapper w a now) (.fire w.host.nextId now2 done)).2.invoked =
        w.invoked ++ [{ args := a, time := now2 }] ∧
      ((fn a w.target).1 = .ok () →
        (step fn (wrapper w a now) (.fire w.host.nextId now2 done)).2.c.lastTime =
          some done) := by
  have hwe : w = run fn (World.fresh wait s) es := world_of_launch fn wait s es w hl
  have hc : Coherent w := by rw [hwe]; exact coherent_launch fn wait s es
  have hwait : w.c.wait = wait := by rw [hwe]; exact wait_run fn es _
  have hdel : now + hostDelay (delay w.c.wait now w.c.lastTime) = now := by
    rw [hlt, hwait, hostDelay_delay_elapsed wait now lt (by push_cast; exact hel)]
    omega
  have hw2 := wrapper_next w a now hin hc
  rw [hdel] at hw2
  have ht : (wrapper w a now).host.timers = [{ id := w.host.nextId, due := now, args := a }] := by
    rw [hw2]
  have hl2 : (wrapper w a now).c.lastTime = some lt := by rw [hw2]; exact hlt
  have hwt : (wrapper w a now).c.wait = wait := by rw [hw2]; exact hwait
  have hi2 : (wrapper w a now).invoked = w.invoked := by rw [hw2]
  have ha2 : (wrapper w a now).target = w.target := by rw [hw2]
  refine ⟨hi2, ha2, hl2, ht, ?_⟩
  intro now2 done h2
  have hg : elapsedGe now2 (wrapper w a now).c.lastTime (wrapper w a now).c.wait = true := by
    simp only [elapsedGe, hl2, hwt, decide_eq_true_eq]
    have hq : (now : ℚ) ≤ now2 := by exact_mod_cast h2
    push_cast
    linarith
  obtain ⟨p1, _, p3⟩ := fire_passing fn (wrapper w a now)
    { id := w.host.nextId, due := now, args := a } now2 done ht hg
  refine ⟨?_, ?_⟩
  · rw [← hi2]; exact p1
  · intro hok
    rw [← ha2] at hok
    exact p3 hok

/-- Witness of C4 amended: `wait = 100`, first call at 0, late call at 150, fired at 150. -/
theorem late_call_defers_witness :
    (0 : ℚ) ≤ 100 ∧
    launch recorder 100 [] [.call 1 0] = .ok (run recorder (World.fresh 100 []) [.call 1 0]) ∧
    (wrapper (run recorder (World.fresh 100 []) [.call 1 0]) 2 150).host.timers =
      [{ id := 0, due := 150, args := 2 }] ∧
    (wrapper (run recorder (World.fresh 100 []) [.call 1 0]) 2 150).invoked = [] :=
  ⟨by norm_num, rfl,
    (late_call_defers recorder 100 (by norm_num) [] [.call 1 0]
      (run recorder (World.fresh 100 []) [.call 1 0]) rfl 2 150 0 rfl rfl
      (by norm_num)).2.2.2.1,
    (late_call_defers recorder 100 (by norm_num) [] [.call 1 0]
      (run recorder (World.fresh 100 []) [.call 1 0]) rfl 2 150 0 rfl rfl (by norm_num)).1⟩

/-- Every call of the wrapper other than the first is delivered unless a later call replaces
it, for a window of whole milliseconds: in a reachable world where the first call has
happened and `lastTime` is not ahead of the clock, a call leaves one pending timeout
carrying its arguments, and when that timeout fires at or after its due time `fn` is invoked
with them. -/
theorem later_call_delivered (fn : α → σ → Except ε Unit × σ) (wait : ℚ) (s : σ)
    (es : List (Event α)) (w : World α σ) (hl : launch fn wait s es = .ok w)
    (hw : wholeWindow wait) (hin : w.c.inThrottle = true) (a : α) (now : Int)
    (hb : ∀ lt, w.c.lastTime = some lt → lt ≤ now) :
    ∃ tm, (wrapper w a now).host.timers = [tm] ∧ tm.args = a ∧
      ∀ now2 done, tm.due ≤ now2 →
        (step fn (wrapper w a now) (.fire tm.id now2 done)).2.invoked =
          w.invoked ++ [{ args := a, time := now2 }] := by
  have hwe := world_of_launch fn wait s es w hl
  have hc : Coherent w := by rw [hwe]; exact coherent_launch fn wait s es
  have hwait : w.c.wait = wait := by rw [hwe]; exact wait_run fn es _
  have hd : Due (wrapper w a now) := due_wrapper w a now hc (by rw [hwait]; exact hw) hb
  have hw2 := wrapper_next w a now hin hc
  have ht : (wrapper w a now).host.timers =
      [{ id := w.host.nextId, due := now + hostDelay (delay w.c.wait now w.c.lastTime),
         args := a }] := by
    rw [hw2]
  have hi2 : (wrapper w a now).invoked = w.invoked := by rw [hw2]
  refine ⟨_, ht, rfl, ?_⟩
  intro now2 done h2
  rw [← hi2]
  exact (fire_when_due fn _ _ now2 done ht hd h2).1

/-- C6, counterexample: `wait = 100`, calls at 0 and 30. The timeout scheduled by the second
call is due at 100 and its firing at 100 invokes `fn`; a further wrapper call at 50, the only
operation the caller has, replaces it by another timeout that fires at 100 as well. -/
theorem cancel_counterexample :
    ∃ w tm, launch recorder 100 [] [.call 1 0, .call 2 30] = .ok w ∧ w.host.timers = [tm] ∧
      tm.due = 100 ∧ (step recorder w (.fire tm.id 100 100)).2.invoked =
        [{ args := 2, time := 100 }] ∧
      (run recorder w [.call 3 50]).host.timers = [{ id := 1, due := 100, args := 3 }] ∧
      (run recorder w [.call 3 50, .fire 1 100 100]).invoked = [{ args := 3, time := 100 }] :=
  ⟨_, { id := 0, due := 100, args := 2 }, rfl, by decide!, by decide!, by decide!,
    by decide!, by decide!⟩

/-- C6, amended: the wrapper is all that `throttle` returns; there is no cancel operation.
A pending timeout is revoked only by the next call of the wrapper, which schedules its
replacement in the same step: from a reachable world with a pending timeout, after any
sequence of wrapper calls exactly one timeout is pending. For a window of whole
milliseconds, at most 2147483647, and a non-decreasing clock, `fn` is invoked when that
timeout fires at or after its due time. -/
theorem pending_survives_calls (fn : α → σ → Except ε Unit × σ) (wait : ℚ) (s : σ)
    (es : List (Event α)) (w : World α σ) (hl : launch fn wait s es = .ok w)
    (hp : w.host.timers ≠ []) (cs : List (α × Int)) :
    ∃ tm, (run fn w (burst cs)).host.timers = [tm] ∧
      (wholeWindow wait → monotoneClock (es ++ burst cs) = true →
        ∀ now done, tm.due ≤ now →
          (step fn (run fn w (burst cs)) (.fire tm.id now done)).2.invoked =
            (run fn w (burst cs)).invoked ++ [{ args := tm.args, time := now }]) := by
  have hwe := world_of_launch fn wait s es w hl
  have hc : Coherent w := by rw [hwe]; exact coherent_launch fn wait s es
  obtain ⟨tm, htm⟩ := run_burst_pending fn cs w hc hp
  refine ⟨tm, htm, ?_⟩
  intro hw hclk now done h
  have hd : Due (run fn w (burst cs)) := by
    rw [hwe, ← run_append]
    exact due_launch fn wait s (es ++ burst cs) hw hclk
  exact (fire_when_due fn _ tm now done htm hd h).1

/-- Witness of C6 amended: calls at 0 and 30 with `wait = 100`, then a call at 50. -/
theorem pending_survives_calls_witness :
    launch recorder 100 [] [.call 1 0, .call 2 30] =
      .ok (run recorder (World.fresh 100 []) [.call 1 0, .call 2 30]) ∧
    (run recorder (World.fresh 100 []) [.call 1 0, .call 2 30]).host.timers ≠ [] ∧
    wholeWindow 100 ∧
    monotoneClock ([.call 1 0, .call 2 30] ++ burst [((3 : Nat), 50)]) = true ∧
    ∃ tm, (run recorder (run recorder (World.fresh 100 []) [.call 1 0, .call 2 30])
        (burst [(3, 50)])).host.timers = [tm] ∧
      (wholeWindow 100 →
        monotoneClock ([.call 1 0, .call 2 30] ++ burst [((3 : Nat), 50)]) = true →
        ∀ now done, tm.due ≤ now →
          (step recorder (run recorder (run recorder (World.fresh 100 [])
            [.call 1 0, .call 2 30]) (burst [(3, 50)])) (.fire tm.id now done)).2.invoked =
            (run recorder (run recorder (World.fresh 100 []) [.call 1 0, .call 2 30])
              (burst [(3, 50)])).invoked ++ [{ args := tm.args, time := now }]) :=
  ⟨rfl, by decide!, ⟨100, by norm_num, by decide⟩, by decide,
    pending_survives_calls recorder 100 [] [.call 1 0, .call 2 30]
      (run recorder (World.fresh 100 []) [.call 1 0, .call 2 30]) rfl (by decide!) [(3, 50)]⟩

/-- C7, counterexample: `throttle(fn, -5)` does not fail. It returns a wrapper, and that
wrapper takes calls: after calls at 0 and 1 the timeout fired at 1 invokes `fn`. -/
theorem negative_wait_counterexample :
    throttle (-5) ≠ .error .invalidConfiguration ∧
    throttle (-5) = .ok { wait := -5, timerId := none, inThrottle := false, lastTime := none } ∧
    ∃ w, launch recorder (-5) [] [.call 1 0, .call 2 1, .fire 0 1 1] = .ok w ∧
      w.invoked = [{ args := 2, time := 1 }] :=
  ⟨(fun h => by cases h), rfl, _, rfl, by decide!⟩

/-- C7, amended: `throttle` does not validate `wait`. For every `wait`, negative ones
included, `throttle(fn, wait)` returns a wrapper in its initial state, no invalid
configuration error is raised, and every sequence of calls and timer firings runs on it
with that `wait`. -/
theorem throttle_accepts_any_wait (fn : α → σ → Except ε Unit × σ) (wait : ℚ) (s : σ)
    (es : List (Event α)) :
    throttle wait ≠ .error .invalidConfiguration ∧
    throttle wait = .ok { wait := wait, timerId := none, inThrottle := false, lastTime := none } ∧
    ∃ w, launch fn wait s es = .ok w ∧ w.c.wait = wait := by
  refine ⟨?_, rfl, _, launch_eq fn wait s es, wait_run fn es _⟩
  intro h
  cases h

end Throttle

/-! # Theorems about `withAbort` -/

namespace Api

variable {β κ γ τ ρ ν : Type}

theorem handleError_fst (isCancel : ApiError ρ → Bool) (e : ApiError ρ) :
    (handleError isCancel e).1 = if isCancel e then { e with aborted := some true } else e := by
  unfold handleError didAbort
  cases isCancel e <;> rfl

/-- C10: error marking of `withAbort`. Whenever the executor reaches its call of `fn`: if
`fn` resolves with `v` the executor resolves with `v`; if `fn` rejects with `e` the executor
rejects with `e` itself, whose `aborted` property has been set to `true` exactly when
`axios.isCancel(e)` holds and is untouched otherwise. -/
theorem withAbort_marks_error (isCancel : ApiError ρ → Bool) (source : γ × τ)
    (typeError : ApiError ρ) (props : β → κ)
    (fn : List (Arg β κ γ ρ) → SentConfig κ τ → Outcome ρ ν) (args : List (Arg β κ γ ρ))
    (pos : List (Arg β κ γ ρ)) (config : SentConfig κ τ)
    (hcall : prepare source typeError props args = .ok (pos, config)) :
    (∀ v, fn pos config = .ok v →
      (withAbort isCancel source typeError props fn args).1 = .ok v) ∧
    (∀ e, fn pos config = .error e →
      ∃ r, (withAbort isCancel source typeError props fn args).1 = .error r ∧
        r.content = e.content ∧
        (isCancel e = true → r = { e with aborted := some true }) ∧
        (isCancel e = false → r = e)) := by
  refine ⟨?_, ?_⟩
  · intro v hv
    simp only [withAbort, hcall, hv]
  · intro e he
    refine ⟨(handleError isCancel e).1, ?_, ?_, ?_, ?_⟩
    · simp only [withAbort, hcall, he]
    · rw [handleError_fst]; split <;> rfl
    · intro h; rw [handleError_fst, h]; rfl
    · intro h; rw [handleError_fst, h]; rfl

/-- Witness of C10: a request with an `abort` function whose `fn` rejects with the
cancellation error. -/
theorem withAbort_marks_error_witness :
    prepare ((), 9) { content := 8, aborted := none } id getArgs =
      .ok ([.value 1], { rest := 2, cancelToken := some 9 }) ∧
    rejecting [.value 1] { rest := 2, cancelToken := some 9 } =
      .error { content := 0, aborted := none } ∧
    ∃ r, (withAbort cancelled ((), 9) { content := 8, aborted := none } id rejecting
        getArgs).1 = .error r ∧
      r.content = 0 ∧ (cancelled { content := 0, aborted := none } = true →
        r = { content := 0, aborted := some true }) ∧
      (cancelled { content := 0, aborted := none } = false →
        r = { content := 0, aborted := none }) :=
  ⟨rfl, rfl,
    (withAbort_marks_error cancelled ((), 9) { content := 8, aborted := none } id rejecting
      getArgs [.value 1] { rest := 2, cancelToken := some 9 } rfl).2
        { content := 0, aborted := none } rfl⟩

end Api
